import Mathlib

/-!
A shallow embedding of `dmenu_desktop.py` (a dmenu-based application
launcher) and proofs about its catalog construction, caching and
launch-command handling.

Python strings are modelled as Lean `String`/`List Char`; byte strings
(the `bytes` produced by `str.encode("ascii")`) as `List Nat`; file
modification times as `Nat`; Python exceptions as an error type threaded
through `Except`.  `str.lower` is modelled character-wise by
`Char.toLower`, which agrees with Python on every ASCII string (and on
all the characters appearing in this development).
-/

instance {ε α : Type} [DecidableEq ε] [DecidableEq α] : DecidableEq (Except ε α) := fun x y =>
  match x, y with
  | .error a, .error b =>
    if h : a = b then .isTrue (by rw [h]) else .isFalse (by intro hc; injection hc; exact h (by assumption))
  | .ok a, .ok b =>
    if h : a = b then .isTrue (by rw [h]) else .isFalse (by intro hc; injection hc; exact h (by assumption))
  | .error _, .ok _ => .isFalse (by intro hc; injection hc)
  | .ok _, .error _ => .isFalse (by intro hc; injection hc)

/-- The Python exceptions the script can raise along the modelled paths. -/
inductive PyError
  /-- Python `KeyError`: a missing mapping key or config section. -/
  | keyError
  /-- Python `configparser.ParsingError` (or a decode error) from `parser.read`. -/
  | parsingError
  /-- Python `UnicodeEncodeError` from `bytes(s, "ascii")` on a non-ASCII string. -/
  | unicodeEncodeError
  /-- Python `OSError` from `os.path.getmtime` on a missing path. -/
  | osError
  /-- Python `ValueError` from `max()` on an empty sequence. -/
  | valueError
  /-- Python `pickle.UnpicklingError` from `pickle.load` on a corrupt cache file. -/
  | unpicklingError
deriving DecidableEq, Repr

/-- A parsed `[Desktop Entry]` section as `RawConfigParser` stores it: an
association mapping from option name to string value.  `RawConfigParser`
lowercases option names on both store and lookup (its default
`optionxform`), so the keys held here are already lowercase. -/
abbrev DEntry := List (String × String)

/-- The `RawConfigParser` default `optionxform`: option names are lowercased. -/
def optionxform (s : String) : String := ⟨s.data.map Char.toLower⟩

/-- Mapping lookup `entry[k]` returning `none` instead of raising
`KeyError`; callers that raise on absence match on the `none`. -/
def getOpt (e : DEntry) (k : String) : Option String :=
  (e.find? (fun p => p.1 == optionxform k)).map (fun p => p.2)

/-- The Python `k in entry` containment test. -/
def hasOpt (e : DEntry) (k : String) : Bool :=
  (e.find? (fun p => p.1 == optionxform k)).isSome

/-- A candidate `.desktop` file as the scan sees it: its path, and the
outcome of `RawConfigParser().read` on its contents — `Except.error ()`
when reading raises (malformed file), otherwise the parsed sections
(section name to options; an unreadable file is silently skipped by
`read` and yields no sections at all, i.e. `Except.ok []`). -/
structure DFile where
  path : String
  content : Except Unit (List (String × DEntry))
deriving DecidableEq

/-- Lines 75-80: read the file, take the `"Desktop Entry"` section
(`KeyError` when it is absent), and record the source path in the entry
under key `"filename"`. -/
def parse_file (f : DFile) : Except PyError DEntry :=
  match f.content with
  | .error _ => .error .parsingError
  | .ok sections =>
    match (sections.find? (fun p => p.1 == "Desktop Entry")).map (fun p => p.2) with
    | none => .error .keyError
    | some entry => .ok (("filename", f.path) :: entry)

/-- Lines 82-86: the visibility filter.  `entry["Type"]` is an unguarded
lookup, so a missing `Type` raises `KeyError`; `NoDisplay` and `Hidden`
are guarded by `in` tests. -/
def entry_visible (entry : DEntry) : Except PyError Bool :=
  match getOpt entry "Type" with
  | none => .error .keyError
  | some t =>
    .ok ((t == "Application")
      && (!hasOpt entry "NoDisplay" || getOpt entry "NoDisplay" == some "false")
      && (!hasOpt entry "Hidden" || getOpt entry "Hidden" == some "false"))

/-- Python `s.split("/")[-1]`: the suffix after the last `/`. -/
def basename (l : List Char) : List Char :=
  l.foldl (fun acc c => if c = '/' then [] else acc ++ [c]) []

/-- Python `bytes(s, "ascii")`: the code points when all are below 128,
`UnicodeEncodeError` otherwise. -/
def ascii_bytes (l : List Char) : Except PyError (List Nat) :=
  if l.all (fun c => c.toNat < 128) then .ok (l.map Char.toNat)
  else .error .unicodeEncodeError

/-- Lines 55-56: derive the dmenu display name from the file path —
basename, strip the final 8 characters (`.desktop`), lowercase, append a
newline, encode to ASCII bytes. -/
def derive_name (path : String) : Except PyError (List Nat) :=
  let base := basename path.data
  let stem := base.take (base.length - 8)
  ascii_bytes (stem.map Char.toLower ++ ['\n'])

/-- The per-application launch record built on lines 67-71. -/
structure AppData where
  command : String
  terminal : Bool
  path : String
deriving DecidableEq, Repr

/-- The `(name, app_data)` list: the display-name bytes paired with
launch data. -/
abbrev Catalog := List (List Nat × AppData)

/-- The launch record a visible candidate entry contributes (lines
62-71): `command` from `Exec`, `terminal` true iff `Terminal` is present
and equals `"true"`, `path` from `Path` with the home directory as
fallback. -/
def app_data (home : String) (e : DEntry) : AppData :=
  { command := (getOpt e "Exec").getD ""
    terminal := hasOpt e "Terminal" && (getOpt e "Terminal" == some "true")
    path := (getOpt e "Path").getD home }

/-- The lazy pipeline of lines 42-71 as executed by the `for` loop: each
file is parsed (`map(parse_file, ...)`), filtered (`filter(entry_visible,
...)`), and the loop body derives the name, skips names already claimed,
and otherwise appends `(name, app_data)`; the first exception raised
anywhere aborts the whole construction. -/
def build_loop (home : String) :
    List DFile → Catalog → List (List Nat) → Except PyError Catalog
  | [], results, _ => .ok results
  | f :: rest, results, existing_names =>
    match parse_file f with
    | .error e => .error e
    | .ok candidate =>
      match entry_visible candidate with
      | .error e => .error e
      | .ok false => build_loop home rest results existing_names
      | .ok true =>
        match getOpt candidate "filename" with
        | none => .error .keyError
        | some fn =>
          match derive_name fn with
          | .error e => .error e
          | .ok name =>
            if name ∈ existing_names then
              build_loop home rest results existing_names
            else
              match getOpt candidate "Exec" with
              | none => .error .keyError
              | some exec =>
                build_loop home rest
                  (results ++ [(name,
                    { command := exec
                      terminal := hasOpt candidate "Terminal"
                        && (getOpt candidate "Terminal" == some "true")
                      path := (getOpt candidate "Path").getD home })])
                  (name :: existing_names)

/-- Python `bytes` comparison: lexicographic order on byte sequences. -/
def bytesLe : List Nat → List Nat → Bool
  | [], _ => true
  | _ :: _, [] => false
  | a :: as, b :: bs => if a < b then true else if b < a then false else bytesLe as bs

/-- Stable insertion of one element into a sorted list (the element goes
before the first position where `le` holds). -/
def insert_le (le : α → α → Bool) (a : α) : List α → List α
  | [] => [a]
  | b :: bs => if le a b then a :: b :: bs else b :: insert_le le a bs

/-- Python `sorted`: a stable comparison sort.  Modelled as insertion
sort, which is extensionally the same stable sort. -/
def py_sorted (le : α → α → Bool) : List α → List α
  | [] => []
  | a :: as => insert_le le a (py_sorted le as)

/-- Lines 41-73: glob every configured directory (each directory
contributes its matched files in arbitrary enumeration order, so a
directory is modelled as an arbitrary file list), chain them in
directory-priority order, run the loop, and sort the result by the name
bytes. -/
def parse_desktop_files (home : String) (dirs : List (List DFile)) :
    Except PyError Catalog :=
  match build_loop home dirs.flatten [] [] with
  | .error e => .error e
  | .ok results => .ok (py_sorted (fun a b => bytesLe a.1 b.1) results)

/-- The file-system state the cache logic consults: the cache file
(modification time and pickled contents, when the file exists; a corrupt
pickle is `Except.error ()`), the per-directory modification times of
the configured `DIRS` (`none` for a missing directory), the glob results
of those directories, and `HOME_DIR`. -/
structure FS where
  cache : Option (Nat × Except Unit Catalog)
  dir_mtimes : List (Option Nat)
  dirs : List (List DFile)
  home : String

/-- Models `os.path.getmtime`: raises `OSError` on a missing path. -/
def getmtime : Option Nat → Except PyError Nat
  | none => .error .osError
  | some t => .ok t

/-- Lines 33-39: when the cache file exists, compare its modification
time against `max(os.path.getmtime(d) for d in DIRS)`; a missing cache
file is invalid. -/
def is_valid_cache (fs : FS) : Except PyError Bool :=
  match fs.cache with
  | none => .ok false
  | some (cache_mtime, _) =>
    match fs.dir_mtimes.mapM getmtime with
    | .error e => .error e
    | .ok mtimes =>
      match mtimes.max? with
      | none => .error .valueError
      | some dirs_mtime => .ok (decide (cache_mtime ≥ dirs_mtime))

/-- Lines 25-31: return the unpickled cache when it is valid, otherwise
recompute via `parse_desktop_files` and overwrite the cache (`now` is
the modification time the rewritten cache file receives).  The returned
pair is the catalog and the file system state after the call. -/
def get_results_list (now : Nat) (fs : FS) : Except PyError (Catalog × FS) :=
  match is_valid_cache fs with
  | .error e => .error e
  | .ok true =>
    match fs.cache with
    | none => .error .osError
    | some (_, .error _) => .error .unpicklingError
    | some (_, .ok results) => .ok (results, fs)
  | .ok false =>
    match parse_desktop_files fs.home fs.dirs with
    | .error e => .error e
    | .ok results => .ok (results, { fs with cache := some (now, .ok results) })

/-- Drop a single leading space when present (what the `?` in the
pattern `%[a-zA-Z] ?` consumes after a matched placeholder). -/
def dropOneSpace : List Char → List Char
  | [] => []
  | c :: rest => if c = ' ' then rest else c :: rest

/-- Line 118, `re.sub("%[a-zA-Z] ?", "", command)`: scan left to right;
at a `%` followed by an ASCII letter, drop both characters and at most
one immediately following space, then continue after the match;
otherwise keep the character. -/
def stripCodes : List Char → List Char
  | [] => []
  | ['%'] => ['%']
  | '%' :: d :: ' ' :: rest =>
    if d.isAlpha then stripCodes rest
    else '%' :: stripCodes (d :: ' ' :: rest)
  | '%' :: d :: rest =>
    if d.isAlpha then stripCodes rest
    else '%' :: stripCodes (d :: rest)
  | c :: rest => c :: stripCodes rest

/-- The processed launch command of line 118 as a string. -/
def strip_exec_codes (s : String) : String := ⟨stripCodes s.data⟩

/-! ### Helper lemmas -/

/-- The file is a parsed, visible candidate whose derived display name is `n`. -/
def ClaimsName (f : DFile) (n : List Nat) : Prop :=
  ∃ e, parse_file f = .ok e ∧ entry_visible e = .ok true ∧ derive_name f.path = .ok n

/-- A catalog sorted by name bytes with pairwise-distinct names. -/
def good_catalog (cat : Catalog) : Prop :=
  cat.Pairwise (fun a b => bytesLe a.1 b.1 = true) ∧ (cat.map Prod.fst).Nodup

/-- Every catalog stored (deserialisably) in the cache file satisfies
`good_catalog`. -/
def good_cache (fs : FS) : Prop :=
  ∀ t c, fs.cache = some (t, Except.ok c) → good_catalog c

theorem bytesLe_total : ∀ a b : List Nat, (bytesLe a b || bytesLe b a) = true := by
  intro a
  induction a with
  | nil => intro b; simp [bytesLe]
  | cons x as ih =>
    intro b
    cases b with
    | nil => simp [bytesLe]
    | cons y bs =>
      by_cases hxy : x < y
      · simp [bytesLe, hxy]
      · by_cases hyx : y < x
        · simp [bytesLe, hxy, hyx]
        · simpa [bytesLe, hxy, hyx] using ih bs

theorem bytesLe_trans :
    ∀ a b c : List Nat, bytesLe a b = true → bytesLe b c = true → bytesLe a c = true := by
  intro a
  induction a with
  | nil => intro b c _ _; simp [bytesLe]
  | cons x as ih =>
    intro b c hab hbc
    cases b with
    | nil => simp [bytesLe] at hab
    | cons y bs =>
      cases c with
      | nil => simp [bytesLe] at hbc
      | cons z cs =>
        simp only [bytesLe] at hab hbc ⊢
        split_ifs at hab hbc ⊢ with h1 h2 h3 h4 h5 h6 <;> try omega
        all_goals try rfl
        · exact ih bs cs hab hbc

theorem insert_le_perm (le : α → α → Bool) (a : α) (l : List α) :
    (insert_le le a l).Perm (a :: l) := by
  induction l with
  | nil => simp [insert_le]
  | cons b bs ih =>
    rw [insert_le]
    split
    · exact List.Perm.refl _
    · exact (ih.cons b).trans (List.Perm.swap a b bs)

theorem py_sorted_perm (le : α → α → Bool) (l : List α) : (py_sorted le l).Perm l := by
  induction l with
  | nil => rfl
  | cons a as ih => exact (insert_le_perm le a (py_sorted le as)).trans (ih.cons a)

theorem insert_le_pairwise (le : α → α → Bool)
    (htr : ∀ a b c, le a b = true → le b c = true → le a c = true)
    (hto : ∀ a b, (le a b || le b a) = true)
    (a : α) (l : List α) (h : l.Pairwise (fun x y => le x y = true)) :
    (insert_le le a l).Pairwise (fun x y => le x y = true) := by
  induction l with
  | nil => simp [insert_le]
  | cons b bs ih =>
    rw [List.pairwise_cons] at h
    rw [insert_le]
    split
    · next hab =>
      rw [List.pairwise_cons]
      refine ⟨?_, List.pairwise_cons.mpr h⟩
      intro y hy
      rcases List.mem_cons.mp hy with rfl | hy'
      · exact hab
      · exact htr a b y hab (h.1 y hy')
    · next hab =>
      rw [List.pairwise_cons]
      refine ⟨?_, ih h.2⟩
      intro y hy
      rcases List.mem_cons.mp ((insert_le_perm le a bs).mem_iff.mp hy) with hya | hy'
      · rw [hya]
        have h2 : le a b = true ∨ le b a = true := by simpa using hto a b
        rcases h2 with h' | h'
        · exact absurd h' hab
        · exact h'
      · exact h.1 y hy'

theorem py_sorted_pairwise (le : α → α → Bool)
    (htr : ∀ a b c, le a b = true → le b c = true → le a c = true)
    (hto : ∀ a b, (le a b || le b a) = true) (l : List α) :
    (py_sorted le l).Pairwise (fun x y => le x y = true) := by
  induction l with
  | nil => simp [py_sorted]
  | cons a as ih => exact insert_le_pairwise le htr hto a (py_sorted le as) ih

theorem nodup_fst_unique {α β : Type} {l : List (α × β)}
    (h : (l.map Prod.fst).Nodup) {n : α} {d d' : β}
    (h1 : (n, d) ∈ l) (h2 : (n, d') ∈ l) : d = d' := by
  induction l with
  | nil => cases h1
  | cons p t ih =>
    rw [List.map_cons, List.nodup_cons] at h
    rcases List.mem_cons.mp h1 with rfl | ht1
    · rcases List.mem_cons.mp h2 with he2 | ht2
      · exact (congrArg Prod.snd he2).symm
      · exact absurd (List.mem_map.mpr ⟨(n, d'), ht2, rfl⟩) h.1
    · rcases List.mem_cons.mp h2 with he2 | ht2
      · rw [← he2] at h
        exact absurd (List.mem_map.mpr ⟨(n, d), ht1, rfl⟩) h.1
      · exact ih h.2 ht1 ht2

theorem countP_eq_zero_of_fst {α β : Type} [DecidableEq α] {l : List (α × β)} {n : α}
    (h : n ∉ l.map Prod.fst) : l.countP (fun p => decide (p.1 = n)) = 0 := by
  induction l with
  | nil => rfl
  | cons p t ih =>
    rw [List.map_cons, List.mem_cons] at h
    push_neg at h
    rw [List.countP_cons]
    simp only [decide_eq_true_eq]
    rw [ih h.2, if_neg (by exact fun hc => h.1 hc.symm)]

theorem nodup_fst_countP {α β : Type} [DecidableEq α] {l : List (α × β)}
    (h : (l.map Prod.fst).Nodup) {n : α} {d : β} (hm : (n, d) ∈ l) :
    l.countP (fun p => decide (p.1 = n)) = 1 := by
  induction l with
  | nil => cases hm
  | cons p t ih =>
    rw [List.map_cons, List.nodup_cons] at h
    rw [List.countP_cons]
    rcases List.mem_cons.mp hm with rfl | ht
    · rw [countP_eq_zero_of_fst (by simpa using h.1)]
      simp
    · rw [ih h.2 ht, if_neg ?_]
      simp only [decide_eq_true_eq]
      intro hc
      simp only [hc] at h
      exact h.1 (List.mem_map.mpr ⟨(n, d), ht, rfl⟩)

theorem parse_file_filename {f : DFile} {e : DEntry} (h : parse_file f = .ok e) :
    getOpt e "filename" = some f.path := by
  rw [parse_file] at h
  cases hc : f.content with
  | error u => simp only [hc] at h; cases h
  | ok sections =>
    simp only [hc] at h
    cases hs : (sections.find? (fun p => p.1 == "Desktop Entry")).map (fun p => p.2) with
    | none => simp only [hs] at h; cases h
    | some entry =>
      simp only [hs] at h
      injection h with h2
      rw [← h2, getOpt]
      have hfind : List.find? (fun p => p.1 == optionxform "filename")
          (("filename", f.path) :: entry) = some ("filename", f.path) :=
        List.find?_cons_of_pos entry (by
          show ("filename" == optionxform "filename") = true
          decide)
      rw [hfind]
      rfl

theorem mapM_getmtime_error {l : List (Option Nat)} (h : none ∈ l) :
    l.mapM getmtime = .error .osError := by
  induction l with
  | nil => cases h
  | cons x t ih =>
    cases x with
    | none => rfl
    | some v =>
      rcases List.mem_cons.mp h with hx | ht
      · cases hx
      · rw [List.mapM_cons, ih ht]
        rfl

theorem ascii_bytes_lt {l : List Char} {bs : List Nat} (h : ascii_bytes l = .ok bs) :
    ∀ b ∈ bs, b < 128 := by
  rw [ascii_bytes] at h
  split at h
  · next hall =>
    injection h with h2
    intro b hb
    rw [← h2] at hb
    rcases List.mem_map.mp hb with ⟨c, hc, rfl⟩
    simpa using List.all_eq_true.mp hall c hc
  · cases h

theorem derive_name_lt {p : String} {nm : List Nat} (h : derive_name p = .ok nm) :
    ∀ b ∈ nm, b < 128 := by
  rw [derive_name] at h
  exact ascii_bytes_lt h

theorem build_ok_files (home : String) :
    ∀ (fs : List DFile) (results : Catalog) (names : List (List Nat)) (out : Catalog),
      build_loop home fs results names = .ok out → ∀ f ∈ fs,
      ∃ e b, parse_file f = .ok e ∧ entry_visible e = .ok b ∧
        (b = true → ∃ nm, derive_name f.path = .ok nm) := by
  intro fs
  induction fs with
  | nil => intro _ _ _ _ f hf; cases hf
  | cons g rest ih =>
    intro results names out h f hf
    rw [build_loop] at h
    cases hps : parse_file g with
    | error e => simp only [hps] at h; cases h
    | ok candidate =>
      simp only [hps] at h
      cases hv : entry_visible candidate with
      | error e => simp only [hv] at h; cases h
      | ok b =>
        simp only [hv] at h
        cases b with
        | false =>
          rcases List.mem_cons.mp hf with rfl | hfr
          · exact ⟨candidate, false, hps, hv, fun hc => nomatch hc⟩
          · exact ih results names out h f hfr
        | true =>
          simp only [parse_file_filename hps] at h
          cases hd : derive_name g.path with
          | error e => simp only [hd] at h; cases h
          | ok nm =>
            simp only [hd] at h
            have hgoal : ∀ results2 names2,
                build_loop home rest results2 names2 = .ok out →
                ∃ e b, parse_file f = .ok e ∧ entry_visible e = .ok b ∧
                  (b = true → ∃ nm2, derive_name f.path = .ok nm2) := by
              intro results2 names2 h2
              rcases List.mem_cons.mp hf with rfl | hfr
              · exact ⟨candidate, true, hps, hv, fun _ => ⟨nm, hd⟩⟩
              · exact ih results2 names2 out h2 f hfr
            by_cases hmem : nm ∈ names
            · rw [if_pos hmem] at h
              exact hgoal results names h
            · rw [if_neg hmem] at h
              cases hex : getOpt candidate "Exec" with
              | none => simp only [hex] at h; cases h
              | some exec =>
                simp only [hex] at h
                exact hgoal _ _ h

theorem build_loop_pre (home : String) (n : List Nat) :
    ∀ (pre rest : List DFile) (results : Catalog) (names : List (List Nat)) (out : Catalog),
      build_loop home (pre ++ rest) results names = .ok out →
      n ∉ names → (∀ p ∈ results, p.1 ≠ n) → (∀ g ∈ pre, ¬ ClaimsName g n) →
      ∃ results2 names2, build_loop home rest results2 names2 = .ok out ∧
        n ∉ names2 ∧ (∀ p ∈ results2, p.1 ≠ n) := by
  intro pre
  induction pre with
  | nil => intro rest results names out h hn hr _; exact ⟨results, names, h, hn, hr⟩
  | cons g pre ih =>
    intro rest results names out h hn hr hpre
    rw [List.cons_append, build_loop] at h
    cases hps : parse_file g with
    | error e => simp only [hps] at h; cases h
    | ok candidate =>
      simp only [hps] at h
      cases hv : entry_visible candidate with
      | error e => simp only [hv] at h; cases h
      | ok b =>
        simp only [hv] at h
        cases b with
        | false =>
          exact ih rest results names out h hn hr
            (fun x hx => hpre x (List.mem_cons_of_mem g hx))
        | true =>
          simp only [parse_file_filename hps] at h
          cases hd : derive_name g.path with
          | error e => simp only [hd] at h; cases h
          | ok m =>
            simp only [hd] at h
            have hmn : m ≠ n := by
              intro hc
              exact hpre g (List.mem_cons_self g pre) ⟨candidate, hps, hv, hc ▸ hd⟩
            by_cases hmem : m ∈ names
            · rw [if_pos hmem] at h
              exact ih rest results names out h hn hr
                (fun x hx => hpre x (List.mem_cons_of_mem g hx))
            · rw [if_neg hmem] at h
              cases hex : getOpt candidate "Exec" with
              | none => simp only [hex] at h; cases h
              | some exec =>
                simp only [hex] at h
                refine ih rest _ _ out h ?_ ?_
                  (fun x hx => hpre x (List.mem_cons_of_mem g hx))
                · intro hc
                  rcases List.mem_cons.mp hc with hc1 | hc2
                  · exact hmn hc1.symm
                  · exact hn hc2
                · intro p hp
                  rcases List.mem_append.mp hp with hp1 | hp2
                  · exact hr p hp1
                  · rcases List.mem_singleton.mp hp2 with rfl
                    exact hmn

theorem build_loop_step_claim {home : String} {f : DFile} {post : List DFile}
    {results : Catalog} {names : List (List Nat)} {out : Catalog}
    {e : DEntry} {n : List Nat}
    (h : build_loop home (f :: post) results names = .ok out)
    (hp : parse_file f = .ok e) (hv : entry_visible e = .ok true)
    (hd : derive_name f.path = .ok n) (hn : n ∉ names) :
    ∃ exec, getOpt e "Exec" = some exec ∧
      build_loop home post (results ++ [(n, app_data home e)]) (n :: names) = .ok out := by
  simp only [build_loop, hp, hv, parse_file_filename hp, hd] at h
  rw [if_neg hn] at h
  cases hex : getOpt e "Exec" with
  | none => simp only [hex] at h; cases h
  | some exec =>
    simp only [hex] at h
    refine ⟨exec, rfl, ?_⟩
    have hdata : app_data home e =
        { command := exec,
          terminal := hasOpt e "Terminal" && (getOpt e "Terminal" == some "true"),
          path := (getOpt e "Path").getD home } := by
      rw [app_data, hex]
      rfl
    rw [hdata]
    exact h

theorem build_loop_keep (home : String) (n : List Nat) (d : AppData) :
    ∀ (fs : List DFile) (results : Catalog) (names : List (List Nat)) (out : Catalog),
      build_loop home fs results names = .ok out →
      n ∈ names → (n, d) ∈ results → (n, d) ∈ out := by
  intro fs
  induction fs with
  | nil =>
    intro results names out h _ hm
    rw [build_loop] at h
    injection h with h2
    exact h2 ▸ hm
  | cons g rest ih =>
    intro results names out h hn hm
    rw [build_loop] at h
    cases hps : parse_file g with
    | error e => simp only [hps] at h; cases h
    | ok candidate =>
      simp only [hps] at h
      cases hv : entry_visible candidate with
      | error e => simp only [hv] at h; cases h
      | ok b =>
        simp only [hv] at h
        cases b with
        | false => exact ih results names out h hn hm
        | true =>
          simp only [parse_file_filename hps] at h
          cases hd : derive_name g.path with
          | error e => simp only [hd] at h; cases h
          | ok m =>
            simp only [hd] at h
            by_cases hmem : m ∈ names
            · rw [if_pos hmem] at h
              exact ih results names out h hn hm
            · rw [if_neg hmem] at h
              cases hex : getOpt candidate "Exec" with
              | none => simp only [hex] at h; cases h
              | some exec =>
                simp only [hex] at h
                exact ih _ _ out h (List.mem_cons_of_mem m hn)
                  (List.mem_append.mpr (Or.inl hm))

theorem build_loop_nodup (home : String) :
    ∀ (fs : List DFile) (results : Catalog) (names : List (List Nat)) (out : Catalog),
      build_loop home fs results names = .ok out →
      (results.map Prod.fst).Nodup → (∀ p ∈ results, p.1 ∈ names) →
      (out.map Prod.fst).Nodup := by
  intro fs
  induction fs with
  | nil =>
    intro results names out h hnd _
    rw [build_loop] at h
    injection h with h2
    exact h2 ▸ hnd
  | cons g rest ih =>
    intro results names out h hnd hsub
    rw [build_loop] at h
    cases hps : parse_file g with
    | error e => simp only [hps] at h; cases h
    | ok candidate =>
      simp only [hps] at h
      cases hv : entry_visible candidate with
      | error e => simp only [hv] at h; cases h
      | ok b =>
        simp only [hv] at h
        cases b with
        | false => exact ih results names out h hnd hsub
        | true =>
          simp only [parse_file_filename hps] at h
          cases hd : derive_name g.path with
          | error e => simp only [hd] at h; cases h
          | ok m =>
            simp only [hd] at h
            by_cases hmem : m ∈ names
            · rw [if_pos hmem] at h
              exact ih results names out h hnd hsub
            · rw [if_neg hmem] at h
              cases hex : getOpt candidate "Exec" with
              | none => simp only [hex] at h; cases h
              | some exec =>
                simp only [hex] at h
                refine ih _ _ out h ?_ ?_
                · rw [List.map_append, List.map_singleton]
                  rw [List.nodup_append]
                  refine ⟨hnd, List.nodup_singleton m, ?_⟩
                  intro x hx hx2
                  rcases List.mem_singleton.mp hx2 with rfl
                  rcases List.mem_map.mp hx with ⟨p, hp, hpe⟩
                  exact hmem (hpe ▸ hsub p hp)
                · intro p hp
                  rcases List.mem_append.mp hp with hp1 | hp2
                  · exact List.mem_cons_of_mem m (hsub p hp1)
                  · rcases List.mem_singleton.mp hp2 with rfl
                    exact List.mem_cons_self m names

theorem fresh_good {home : String} {dirs : List (List DFile)} {cat : Catalog}
    (h : parse_desktop_files home dirs = .ok cat) : good_catalog cat := by
  rw [parse_desktop_files] at h
  cases hb : build_loop home dirs.flatten [] [] with
  | error e => simp only [hb] at h; cases h
  | ok results =>
    simp only [hb] at h
    injection h with h2
    constructor
    · rw [← h2]
      exact py_sorted_pairwise (fun (a b : List Nat × AppData) => bytesLe a.1 b.1)
        (fun a b c => bytesLe_trans a.1 b.1 c.1)
        (fun a b => bytesLe_total a.1 b.1) results
    · have hres : (results.map Prod.fst).Nodup :=
        build_loop_nodup home dirs.flatten [] [] results hb (by simp) (by simp)
      have hperm : (cat.map Prod.fst).Perm (results.map Prod.fst) :=
        (h2 ▸ py_sorted_perm (fun (a b : List Nat × AppData) => bytesLe a.1 b.1) results).map
          Prod.fst
      exact hperm.nodup_iff.mpr hres


theorem hasOpt_getOpt (e : DEntry) (k : String) : hasOpt e k = (getOpt e k).isSome := by
  rw [hasOpt, getOpt]
  cases e.find? (fun p => p.1 == optionxform k) <;> rfl

/-! ### Claims -/

/-- Claim C1 (code bug in the source): the spec requires a configured
directory that does not exist to be excluded from the
max-modification-time computation, with the cache merely reported
invalid when every directory is missing; but whenever the cache file
exists, `is_valid_cache` calls `os.path.getmtime` on every entry of
`DIRS` (line 35) and raises `OSError` as soon as any directory is
missing. -/
theorem c1_missing_dir_raises (fs : FS) (t : Nat) (blob : Except Unit Catalog)
    (hc : fs.cache = some (t, blob)) (hm : none ∈ fs.dir_mtimes) :
    is_valid_cache fs = .error .osError := by
  simp only [is_valid_cache, hc, mapM_getmtime_error hm]

theorem c1_missing_dir_raises_witness :
    is_valid_cache ⟨some (10, .ok []), [none, some 3], [], "/home/user"⟩
      = .error .osError :=
  c1_missing_dir_raises ⟨some (10, .ok []), [none, some 3], [], "/home/user"⟩ 10 (.ok [])
    rfl (by decide)

/-- Claim C2 (code bug in the source): the spec requires an entry with
no `Type` field to be treated as not visible, with the absent key
guarded explicitly; but `entry_visible` evaluates `entry["Type"]`
unguarded (line 83) and raises `KeyError` instead of returning false. -/
theorem c2_missing_type_raises (e : DEntry) (h : getOpt e "Type" = none) :
    entry_visible e = .error .keyError := by
  simp only [entry_visible, h]

theorem c2_missing_type_raises_witness :
    entry_visible [("exec", "x")] = .error .keyError :=
  c2_missing_type_raises [("exec", "x")] (by decide)

/-- Claim C4 (code bug in the source): the spec requires a cache file
that fails to deserialize to be treated as a cache miss (recompute and
overwrite); but when the timestamps make the cache valid,
`get_results_list` calls `pickle.load` directly (line 27) and a corrupt
cache raises instead of triggering a recompute. -/
theorem c4_corrupt_cache_raises (now : Nat) (fs : FS) (t : Nat)
    (hc : fs.cache = some (t, .error ()))
    (hv : is_valid_cache fs = .ok true) :
    get_results_list now fs = .error .unpicklingError := by
  simp only [get_results_list, hv, hc]

theorem c4_corrupt_cache_raises_witness :
    get_results_list 11 ⟨some (10, .error ()), [some 3], [], "/h"⟩
      = .error .unpicklingError :=
  c4_corrupt_cache_raises 11 ⟨some (10, .error ()), [some 3], [], "/h"⟩ 10 rfl (by decide)

/-- Claim C5: for a parsed entry that has a `Type` field, the visibility
filter accepts exactly when `Type` is `"Application"`, `NoDisplay` is
absent or `"false"`, and `Hidden` is absent or `"false"`; and an entry
the filter rejects contributes nothing to the catalog: the loop skips
it without touching the result list or the claimed names. -/
theorem c5_visibility_rule :
    (∀ (e : DEntry) (t : String), getOpt e "Type" = some t →
      (entry_visible e = .ok true ↔
        (t = "Application" ∧
         (getOpt e "NoDisplay" = none ∨ getOpt e "NoDisplay" = some "false") ∧
         (getOpt e "Hidden" = none ∨ getOpt e "Hidden" = some "false")))) ∧
    (∀ (home : String) (f : DFile) (rest : List DFile) (results : Catalog)
        (names : List (List Nat)) (e : DEntry),
      parse_file f = .ok e → entry_visible e = .ok false →
      build_loop home (f :: rest) results names = build_loop home rest results names) := by
  constructor
  · intro e t h
    cases hnd : getOpt e "NoDisplay" with
    | none =>
      cases hh : getOpt e "Hidden" with
      | none => simp [entry_visible, h, hasOpt_getOpt, hnd, hh]
      | some v => simp [entry_visible, h, hasOpt_getOpt, hnd, hh, and_assoc]
    | some u =>
      cases hh : getOpt e "Hidden" with
      | none => simp [entry_visible, h, hasOpt_getOpt, hnd, hh, and_assoc]
      | some v => simp [entry_visible, h, hasOpt_getOpt, hnd, hh, and_assoc]
  · intro home f rest results names e hp hv
    simp only [build_loop, hp, hv]

theorem c5_visibility_rule_witness :
    entry_visible [("type", "Application")] = .ok true :=
  (c5_visibility_rule.1 [("type", "Application")] "Application" (by decide)).mpr
    ⟨rfl, Or.inl (by decide), Or.inl (by decide)⟩

/-- Claim C3 (code bug in the source): the spec requires a malformed or
unreadable descriptor file to be silently excluded from the catalog; but
any file on which `parse_file` raises (a parse error on malformed
contents, or the missing-section `KeyError` after `read` silently skips
an unreadable file) makes the whole catalog construction raise: no
catalog is produced from the remaining files. -/
theorem c3_parse_failure_aborts (home : String) (dirs : List (List DFile))
    (f : DFile) (err : PyError) (cat : Catalog)
    (hf : f ∈ dirs.flatten) (hp : parse_file f = .error err) :
    parse_desktop_files home dirs ≠ .ok cat := by
  intro hok
  rw [parse_desktop_files] at hok
  cases hb : build_loop home dirs.flatten [] [] with
  | error e => simp only [hb] at hok; cases hok
  | ok results =>
    rcases build_ok_files home dirs.flatten [] [] results hb f hf with ⟨e, b, hpe, _, _⟩
    rw [hp] at hpe
    cases hpe

theorem c3_parse_failure_aborts_witness :
    parse_desktop_files "/h"
      [[⟨"/apps/bad.desktop", .error ()⟩,
        ⟨"/apps/good.desktop", .ok [("Desktop Entry",
          [("type", "Application"), ("exec", "good")])]⟩]]
      ≠ .ok [] :=
  c3_parse_failure_aborts "/h"
    [[⟨"/apps/bad.desktop", .error ()⟩,
      ⟨"/apps/good.desktop", .ok [("Desktop Entry",
        [("type", "Application"), ("exec", "good")])]⟩]]
    ⟨"/apps/bad.desktop", .error ()⟩ .parsingError [] (by decide) rfl

/-- Claim C9: a successful scan forces every visible candidate file to
have an ASCII-only derived display name — the name derivation (which
ends in `bytes(..., "ascii")`) must have succeeded, and then every byte
of the name is below 128; and a visible candidate whose stem contains a
non-ASCII character (here `é`) makes the entire scan raise
`UnicodeEncodeError` instead of that one file being skipped. -/
theorem c9_ascii_names :
    (∀ (home : String) (dirs : List (List DFile)) (cat : Catalog) (f : DFile) (e : DEntry),
      parse_desktop_files home dirs = .ok cat → f ∈ dirs.flatten →
      parse_file f = .ok e → entry_visible e = .ok true →
      ∃ nm, derive_name f.path = .ok nm ∧ ∀ b ∈ nm, b < 128) ∧
    parse_desktop_files "/h"
      [[⟨"/apps/café.desktop", .ok [("Desktop Entry",
        [("type", "Application"), ("exec", "run")])]⟩]]
      = .error .unicodeEncodeError := by
  constructor
  · intro home dirs cat f e hok hf hp hv
    rw [parse_desktop_files] at hok
    cases hb : build_loop home dirs.flatten [] [] with
    | error e2 => simp only [hb] at hok; cases hok
    | ok results =>
      rcases build_ok_files home dirs.flatten [] [] results hb f hf with ⟨e2, b, hpe, hve, hder⟩
      rw [hp] at hpe
      injection hpe with he
      rw [← he] at hve
      rw [hv] at hve
      injection hve with hb2
      rcases hder hb2.symm with ⟨nm, hnm⟩
      exact ⟨nm, hnm, derive_name_lt hnm⟩
  · decide

theorem c9_ascii_names_witness :
    ∃ nm, derive_name "/apps/term.desktop" = .ok nm ∧ ∀ b ∈ nm, b < 128 :=
  c9_ascii_names.1 "/h"
    [[⟨"/apps/term.desktop", .ok [("Desktop Entry",
      [("type", "Application"), ("exec", "t")])]⟩]]
    [([116, 101, 114, 109, 10], ⟨"t", false, "/h"⟩)]
    ⟨"/apps/term.desktop", .ok [("Desktop Entry",
      [("type", "Application"), ("exec", "t")])]⟩
    [("filename", "/apps/term.desktop"), ("type", "Application"), ("exec", "t")]
    (by decide) (by decide) (by decide) (by decide)

/-- Claim C10 is false as stated: a visible descriptor with no `Exec`
field does not always abort catalog construction.  When its derived
display name was already claimed by an earlier file, the duplicate check
of line 57 runs `continue` before `candidate["Exec"]` (line 68) is ever
evaluated, so the scan completes and merely omits the entry — exactly
what happens here for the second file. -/
theorem c10_counterexample :
    parse_file ⟨"/b/app.desktop", .ok [("Desktop Entry", [("type", "Application")])]⟩
        = .ok [("filename", "/b/app.desktop"), ("type", "Application")] ∧
    entry_visible [("filename", "/b/app.desktop"), ("type", "Application")] = .ok true ∧
    getOpt [("filename", "/b/app.desktop"), ("type", "Application")] "Exec" = none ∧
    parse_desktop_files "/h"
      [[⟨"/a/app.desktop", .ok [("Desktop Entry",
          [("type", "Application"), ("exec", "run")])]⟩],
       [⟨"/b/app.desktop", .ok [("Desktop Entry", [("type", "Application")])]⟩]]
      = .ok [([97, 112, 112, 10], ⟨"run", false, "/h"⟩)] :=
  ⟨by decide, by decide, by decide, by decide⟩

/-- Claim C10 amended: a visible descriptor with no `Exec` field whose
derived display name is not claimed by any earlier-processed candidate
reaches the unguarded `candidate["Exec"]` lookup, so the whole catalog
construction fails with `KeyError` instead of omitting that entry. -/
theorem c10_missing_exec_aborts (home : String) (dirs : List (List DFile))
    (a1 a2 : List DFile) (f : DFile) (e : DEntry) (n : List Nat) (cat : Catalog)
    (hsplit : dirs.flatten = a1 ++ f :: a2)
    (hp : parse_file f = .ok e) (hv : entry_visible e = .ok true)
    (hd : derive_name f.path = .ok n)
    (hfirst : ∀ g ∈ a1, ¬ ClaimsName g n)
    (hex : getOpt e "Exec" = none) :
    parse_desktop_files home dirs ≠ .ok cat := by
  intro hok
  rw [parse_desktop_files] at hok
  cases hb : build_loop home dirs.flatten [] [] with
  | error e2 => simp only [hb] at hok; cases hok
  | ok results =>
    rw [hsplit] at hb
    rcases build_loop_pre home n a1 (f :: a2) [] [] results hb (by simp) (by simp) hfirst
      with ⟨results2, names2, h2, hn2, _⟩
    rcases build_loop_step_claim h2 hp hv hd hn2 with ⟨exec, hexec, _⟩
    rw [hex] at hexec
    cases hexec

theorem c10_missing_exec_aborts_witness :
    parse_desktop_files "/h"
      [[⟨"/b/app.desktop", .ok [("Desktop Entry", [("type", "Application")])]⟩]]
      ≠ .ok [] :=
  c10_missing_exec_aborts "/h"
    [[⟨"/b/app.desktop", .ok [("Desktop Entry", [("type", "Application")])]⟩]]
    [] [] ⟨"/b/app.desktop", .ok [("Desktop Entry", [("type", "Application")])]⟩
    [("filename", "/b/app.desktop"), ("type", "Application")] [97, 112, 112, 10] []
    rfl (by decide) (by decide) (by decide)
    (fun g hg => absurd hg (List.not_mem_nil g)) (by decide)

/-- Claim C6: when two descriptor files that live in different
configured directories derive the same display name, and no
earlier-enumerated candidate claims that name, the catalog holds exactly
one entry under that name and its launch data comes from the file in the
earlier-listed directory — whatever the enumeration order inside each
directory (the lists `a1`, `a2`, `b1`, `b2` are arbitrary). -/
theorem c6_priority_wins (home : String) (ds1 ds2 ds3 : List (List DFile))
    (a1 a2 b1 b2 : List DFile) (f g : DFile) (ef eg : DEntry) (n : List Nat) (cat : Catalog)
    (hpf : parse_file f = .ok ef) (hvf : entry_visible ef = .ok true)
    (hdf : derive_name f.path = .ok n)
    (_hpg : parse_file g = .ok eg) (_hvg : entry_visible eg = .ok true)
    (_hdg : derive_name g.path = .ok n)
    (hfirst : ∀ x ∈ ds1.flatten ++ a1, ¬ ClaimsName x n)
    (hok : parse_desktop_files home
      (ds1 ++ (a1 ++ f :: a2) :: (ds2 ++ (b1 ++ g :: b2) :: ds3)) = .ok cat) :
    (n, app_data home ef) ∈ cat ∧
      cat.countP (fun p => decide (p.1 = n)) = 1 ∧
      ∀ d, (n, d) ∈ cat → d = app_data home ef := by
  rw [parse_desktop_files] at hok
  cases hb : build_loop home
      (ds1 ++ (a1 ++ f :: a2) :: (ds2 ++ (b1 ++ g :: b2) :: ds3)).flatten [] [] with
  | error e2 => simp only [hb] at hok; cases hok
  | ok results =>
    simp only [hb] at hok
    injection hok with hok2
    have hsplit : (ds1 ++ (a1 ++ f :: a2) :: (ds2 ++ (b1 ++ g :: b2) :: ds3)).flatten
        = (ds1.flatten ++ a1) ++ f :: (a2 ++ (ds2 ++ (b1 ++ g :: b2) :: ds3).flatten) := by
      simp [List.flatten_append, List.flatten_cons, List.append_assoc]
    rw [hsplit] at hb
    rcases build_loop_pre home n (ds1.flatten ++ a1) _ [] [] results hb
      (by simp) (by simp) hfirst with ⟨results2, names2, h2, hn2, hr2⟩
    rcases build_loop_step_claim h2 hpf hvf hdf hn2 with ⟨exec, hexec, h3⟩
    have hmem : (n, app_data home ef) ∈ results :=
      build_loop_keep home n (app_data home ef) _ _ _ results h3
        (List.mem_cons_self n names2)
        (List.mem_append.mpr (Or.inr (List.mem_singleton.mpr rfl)))
    have hnd : (results.map Prod.fst).Nodup :=
      build_loop_nodup home _ [] [] results hb (by simp) (by simp)
    have hperm : cat.Perm results :=
      hok2 ▸ py_sorted_perm (fun (a b : List Nat × AppData) => bytesLe a.1 b.1) results
    refine ⟨hperm.mem_iff.mpr hmem, ?_, ?_⟩
    · rw [hperm.countP_eq]
      exact nodup_fst_countP hnd hmem
    · intro d hd2
      exact nodup_fst_unique hnd (hperm.mem_iff.mp hd2) hmem

theorem c6_priority_wins_witness :
    ([97, 112, 112, 10],
      app_data "/h" [("filename", "/a/app.desktop"), ("type", "Application"),
        ("exec", "one"), ("terminal", "true")]) ∈
      [([97, 112, 112, 10], ⟨"one", true, "/h"⟩)] :=
  (c6_priority_wins "/h" [] [] [] [] [] [] []
    ⟨"/a/app.desktop", .ok [("Desktop Entry",
      [("type", "Application"), ("exec", "one"), ("terminal", "true")])]⟩
    ⟨"/b/app.desktop", .ok [("Desktop Entry",
      [("type", "Application"), ("exec", "two")])]⟩
    [("filename", "/a/app.desktop"), ("type", "Application"),
      ("exec", "one"), ("terminal", "true")]
    [("filename", "/b/app.desktop"), ("type", "Application"), ("exec", "two")]
    [97, 112, 112, 10]
    [([97, 112, 112, 10], ⟨"one", true, "/h"⟩)]
    (by decide) (by decide) (by decide) (by decide) (by decide) (by decide)
    (by simp) (by decide)).1

/-- Claim C7: every catalog handed back to the caller is sorted by
display-name bytes in lexicographic order and has pairwise-distinct
names: a fresh scan always produces such a catalog, and
`get_results_list` returns one whether it loads a valid cache or
rescans, for any file-system state whose cache contents were written by
this program (`good_cache`, an invariant the call itself preserves). -/
theorem c7_sorted_nodup :
    (∀ (home : String) (dirs : List (List DFile)) (cat : Catalog),
      parse_desktop_files home dirs = .ok cat → good_catalog cat) ∧
    (∀ (now : Nat) (fs : FS) (cat : Catalog) (fs2 : FS),
      good_cache fs → get_results_list now fs = .ok (cat, fs2) →
      good_catalog cat ∧ good_cache fs2) := by
  constructor
  · intro home dirs cat h
    exact fresh_good h
  · intro now fs cat fs2 hgc h
    rw [get_results_list] at h
    cases hv : is_valid_cache fs with
    | error e => simp only [hv] at h; cases h
    | ok b =>
      cases b with
      | true =>
        simp only [hv] at h
        cases hc : fs.cache with
        | none => simp only [hc] at h; cases h
        | some p =>
          rcases p with ⟨t, blob⟩
          cases blob with
          | error u => simp only [hc] at h; cases h
          | ok results =>
            simp only [hc] at h
            injection h with h2
            injection h2 with hcat hfs
            constructor
            · rw [← hcat]
              exact hgc t results hc
            · rw [← hfs]
              exact hgc
      | false =>
        simp only [hv] at h
        cases hp : parse_desktop_files fs.home fs.dirs with
        | error e => simp only [hp] at h; cases h
        | ok results =>
          simp only [hp] at h
          injection h with h2
          injection h2 with hcat hfs
          constructor
          · rw [← hcat]
            exact fresh_good hp
          · intro t c hcc
            rw [← hfs] at hcc
            simp only at hcc
            injection hcc with hcc2
            injection hcc2 with _ hcc3
            injection hcc3 with hcc4
            rw [← hcc4]
            exact fresh_good hp

theorem c7_sorted_nodup_witness :
    good_catalog [([97, 10], ⟨"a", false, "/h"⟩)] :=
  c7_sorted_nodup.1 "/h"
    [[⟨"/x/a.desktop", .ok [("Desktop Entry",
      [("type", "Application"), ("exec", "a")])]⟩]]
    [([97, 10], ⟨"a", false, "/h"⟩)] (by decide)

theorem stripCodes_space {c : Char} (hc : c.isAlpha = true) (rest : List Char) :
    stripCodes ('%' :: c :: ' ' :: rest) = stripCodes rest := by
  simp [stripCodes, hc]

theorem stripCodes_end {c : Char} (hc : c.isAlpha = true) :
    stripCodes ['%', c] = [] := by
  rw [stripCodes.eq_def]
  split
  · next heq => simp at heq
  · next heq => simp at heq
  · next d rest heq => simp at heq
  · next d rest hno heq =>
    simp only [List.cons.injEq] at heq
    rw [← heq.2.1, ← heq.2.2, if_pos hc]
    rfl
  · next c2 rest2 h1 h2 h3 heq =>
    simp only [List.cons.injEq] at heq
    exact absurd (h3 c [] heq.1.symm heq.2.symm) (fun hf => hf)

theorem stripCodes_nospace {c p : Char} (hc : c.isAlpha = true) (hp : p ≠ ' ')
    (ps : List Char) :
    stripCodes ('%' :: c :: p :: ps) = stripCodes (p :: ps) := by
  rw [stripCodes.eq_def]
  split
  · next heq => simp at heq
  · next heq => simp at heq
  · next d rest heq =>
    simp only [List.cons.injEq] at heq
    exact absurd heq.2.2.1 hp
  · next d rest hno heq =>
    simp only [List.cons.injEq] at heq
    rw [← heq.2.1, ← heq.2.2, if_pos hc]
  · next c2 rest2 h1 h2 h3 heq =>
    simp only [List.cons.injEq] at heq
    exact absurd (h3 c (p :: ps) heq.1.symm heq.2.symm) (fun hf => hf)

theorem stripCodes_cons_ne {a : Char} (ha : a ≠ '%') (l : List Char) :
    stripCodes (a :: l) = a :: stripCodes l := by
  rw [stripCodes.eq_def]
  split
  · next heq => simp at heq
  · next heq =>
    simp only [List.cons.injEq] at heq
    exact absurd heq.1 ha
  · next d rest heq =>
    simp only [List.cons.injEq] at heq
    exact absurd heq.1 ha
  · next d rest hno heq =>
    simp only [List.cons.injEq] at heq
    exact absurd heq.1 ha
  · next c2 rest2 h1 h2 h3 heq =>
    simp only [List.cons.injEq] at heq
    rw [← heq.1, ← heq.2]

theorem stripCodes_token {c : Char} (hc : c.isAlpha = true) (post : List Char) :
    stripCodes ('%' :: c :: post) = stripCodes (dropOneSpace post) := by
  cases post with
  | nil => rw [stripCodes_end hc]; rfl
  | cons p ps =>
    by_cases hp : p = ' '
    · rw [hp, stripCodes_space hc]
      simp [dropOneSpace]
    · rw [stripCodes_nospace hc hp]
      simp [dropOneSpace, hp]

/-- Claim C8: the placeholder stripping of line 118 removes each token
made of `%` plus one ASCII letter together with at most one immediately
following space (the text before the token is kept, one following space
is consumed when present, and the remainder is processed the same way);
in particular `vim %f test.txt` becomes exactly `vim test.txt`. -/
theorem c8_strip_codes :
    (∀ (pre : List Char) (c : Char) (post : List Char),
      c.isAlpha = true → '%' ∉ pre →
      stripCodes (pre ++ '%' :: c :: post) = pre ++ stripCodes (dropOneSpace post)) ∧
    strip_exec_codes "vim %f test.txt" = "vim test.txt" := by
  refine ⟨?_, by decide⟩
  intro pre
  induction pre with
  | nil => intro c post hc _; exact stripCodes_token hc post
  | cons a pre ih =>
    intro c post hc hnp
    have ha : a ≠ '%' := by
      intro h
      exact hnp (by rw [h]; exact List.mem_cons_self '%' pre)
    have hpre : '%' ∉ pre := fun h => hnp (List.mem_cons_of_mem a h)
    rw [List.cons_append, stripCodes_cons_ne ha, ih c post hc hpre, List.cons_append]

theorem c8_strip_codes_witness :
    stripCodes (['e'] ++ '%' :: 'f' :: [' ', 'x'])
      = ['e'] ++ stripCodes (dropOneSpace [' ', 'x']) :=
  c8_strip_codes.1 ['e'] 'f' [' ', 'x'] (by decide) (by decide)
